import Mathlib

/-!
Verification of the checkers rules engine in `board.py`.

Cells are the Python one-character strings: `' '`, `'r'`, `'b'`, `'R'`, `'B'`
(arbitrary characters remain representable, exactly as in Python, where a
caller may supply any layout).  Coordinates are signed integers, as in Python,
where `r + dr` may leave the board and is guarded by `is_within_bounds`.
Every board read in the source is in bounds at its call site (the landing
square of a hop is bounds-checked, and the jumped square lies strictly
between the current square and the landing square), so the out-of-bounds
value of `cellAt` is never observed by the source algorithm; it is fixed
to `' '` here.

`_find_jump_sequences_recursive` carries an explicit fuel argument that the
source recursion does not have.  Fuel `65` strictly dominates the depth of
any chain, since every hop captures a distinct board coordinate and at most
64 coordinates exist; the termination theorem for claim C6 proves that the
result is independent of the fuel once it exceeds the number of opponent
pieces on the board, so the fuel-65 instance computes the source recursion.
-/

namespace Checkers

abbrev Coord := Int × Int
abbrev Grid := List (List Char)

/-- `CheckersBoard.is_within_bounds`. -/
def is_within_bounds (row col : Int) : Bool :=
  0 ≤ row && row < 8 && 0 ≤ col && col < 8

/-- The read `self.board[r][c]` (in bounds at every source call site;
out of bounds yields `' '` here). -/
def cellAt (board : Grid) (r c : Int) : Char :=
  if is_within_bounds r c then (board.getD r.toNat []).getD c.toNat ' ' else ' '

/-- The write `self.board[r][c] = v` (in bounds at every source call site). -/
def setCell (board : Grid) (r c : Int) (v : Char) : Grid :=
  if is_within_bounds r c then
    board.set r.toNat ((board.getD r.toNat []).set c.toNat v)
  else board

/-- The grid is an 8×8 array of cells (§3 of the data model; `_create_board`
produces such a grid, and custom layouts are trusted to have this shape). -/
def WellFormed (board : Grid) : Prop :=
  board.length = 8 ∧ ∀ row ∈ board, row.length = 8

instance (board : Grid) : Decidable (WellFormed board) :=
  inferInstanceAs (Decidable (_ ∧ _))

/-- `Move`: `self.start` and `self.end` are derived from `path` exactly as in
`Move.__init__` (`path[0]` and `path[-1]`). -/
structure Move where
  path : List Coord
  captured : List Coord
deriving DecidableEq, Repr

/-- `move.start`, i.e. `path[0]`. -/
def Move.start (m : Move) : Coord := m.path.headD (0, 0)

/-- `move.end`, i.e. `path[-1]` (`end` is a Lean keyword). -/
def Move.endPos (m : Move) : Coord := m.path.getLastD (0, 0)

/-- `_get_directions_for_piece`. -/
def _get_directions_for_piece (piece : Char) : List Coord :=
  if piece = 'r' then [(-1, -1), (-1, 1)]
  else if piece = 'b' then [(1, -1), (1, 1)]
  else if piece = 'R' ∨ piece = 'B' then [(-1, -1), (-1, 1), (1, -1), (1, 1)]
  else []

/-- `_create_board`. -/
def _create_board : Grid :=
  (List.range 8).foldl (fun board i =>
    if i % 2 = 0 then
      setCell (setCell (setCell board 0 (i : Int) 'b') 2 (i : Int) 'b') 6 (i : Int) 'r'
    else
      setCell (setCell (setCell board 1 (i : Int) 'b') 5 (i : Int) 'r') 7 (i : Int) 'r')
    (List.replicate 8 (List.replicate 8 ' '))

/-- The guard of one direction `(dr, dc)` inside `_find_jump_sequences_recursive`:
the jumped square was not already captured in this sequence, the landing square
is on the board and empty, and the jumped square holds an opponent piece
(`jump_over_piece.lower() not in (" ", self.to_move)`). -/
def hopOK (board : Grid) (to_move : Char) (captured : List Coord) (r c dr dc : Int) : Bool :=
  !(decide ((r + dr, c + dc) ∈ captured)) &&
  is_within_bounds (r + 2 * dr) (c + 2 * dc) &&
  (cellAt board (r + 2 * dr) (c + 2 * dc) == ' ') &&
  !((cellAt board (r + dr) (c + dc)).toLower == ' ') &&
  !((cellAt board (r + dr) (c + dc)).toLower == to_move)

/-- `new_is_king`: the king flag used for the next hop after landing on row
`land_r` (promotion during the chain, computed from the original glyph). -/
def next_is_king (original_piece : Char) (is_king : Bool) (land_r : Int) : Bool :=
  is_king || (original_piece.toLower == 'r' && land_r == 0)
          || (original_piece.toLower == 'b' && land_r == 7)

/-- `_find_jump_sequences_recursive`, with explicit fuel (see the header note).
Moves are returned in the source's depth-first append order: the recursive
results of each viable direction in order, then the terminal move of the
current position when no direction is viable and at least one hop was made. -/
def _find_jump_sequences_recursive (board : Grid) (to_move : Char) :
    Nat → List Coord → List Coord → Bool → List Move
  | 0, _, _, _ => []
  | fuel + 1, current_path, captured_this_sequence, is_king =>
    let rc := current_path.getLastD (0, 0)
    let st := current_path.headD (0, 0)
    let original_piece := cellAt board st.1 st.2
    let effective_piece := if is_king then original_piece.toUpper else original_piece
    let directions := _get_directions_for_piece effective_piece
    let found_jump_from_pos :=
      directions.any fun d => hopOK board to_move captured_this_sequence rc.1 rc.2 d.1 d.2
    let results := directions.foldl (fun acc d =>
      if hopOK board to_move captured_this_sequence rc.1 rc.2 d.1 d.2 then
        acc ++ _find_jump_sequences_recursive board to_move fuel
          (current_path ++ [(rc.1 + 2 * d.1, rc.2 + 2 * d.2)])
          (captured_this_sequence ++ [(rc.1 + d.1, rc.2 + d.2)])
          (next_is_king original_piece is_king (rc.1 + 2 * d.1))
      else acc) []
    if found_jump_from_pos = false ∧ 1 < current_path.length then
      results ++ [⟨current_path, captured_this_sequence⟩]
    else results

/-- `_get_jumps_for_piece` (fuel 65 dominates every chain; theorem for C6). -/
def _get_jumps_for_piece (board : Grid) (to_move : Char) (r c : Int) : List Move :=
  _find_jump_sequences_recursive board to_move 65 [(r, c)] [] (cellAt board r c).isUpper

/-- `_get_regular_moves_for_piece`. -/
def _get_regular_moves_for_piece (board : Grid) (r c : Int) : List Move :=
  (_get_directions_for_piece (cellAt board r c)).foldl (fun moves d =>
    if is_within_bounds (r + d.1) (c + d.2) && (cellAt board (r + d.1) (c + d.2) == ' ') then
      moves ++ [⟨[(r, c), (r + d.1, c + d.2)], []⟩]
    else moves) []

/-- The scan order `for r in range(8): for c in range(8)`. -/
def coordsList : List Coord :=
  (List.range 8).flatMap fun r => (List.range 8).map fun c => (Int.ofNat r, Int.ofNat c)

/-- The `all_jumps` accumulation inside `get_possible_moves`. -/
def all_jumps (board : Grid) (to_move : Char) : List Move :=
  coordsList.foldl (fun acc p =>
    if (cellAt board p.1 p.2).toLower == to_move then
      acc ++ _get_jumps_for_piece board to_move p.1 p.2
    else acc) []

/-- The `all_regulars` accumulation inside `get_possible_moves`. -/
def all_regulars (board : Grid) (to_move : Char) : List Move :=
  coordsList.foldl (fun acc p =>
    if (cellAt board p.1 p.2).toLower == to_move then
      acc ++ _get_regular_moves_for_piece board p.1 p.2
    else acc) []

/-- `get_possible_moves`. -/
def get_possible_moves (board : Grid) (to_move : Char) : List Move :=
  if all_jumps board to_move ≠ [] then all_jumps board to_move
  else all_regulars board to_move

/-- `get_moves_for_piece`. -/
def get_moves_for_piece (board : Grid) (to_move : Char) (r c : Int) : List Move :=
  if (cellAt board r c).toLower ≠ to_move then []
  else if _get_jumps_for_piece board to_move r c ≠ [] then
    _get_jumps_for_piece board to_move r c
  else _get_regular_moves_for_piece board r c

/-- `execute_move`: the mutated board and the flipped side to move. -/
def execute_move (board : Grid) (to_move : Char) (move : Move) : Grid × Char :=
  let piece := cellAt board move.start.1 move.start.2
  let b1 := move.captured.foldl (fun b p => setCell b p.1 p.2 ' ') board
  let b2 := setCell b1 move.start.1 move.start.2 ' '
  let b3 := setCell b2 move.endPos.1 move.endPos.2 piece
  let b4 :=
    if (piece.toLower == 'r' && move.endPos.1 == 0)
        || (piece.toLower == 'b' && move.endPos.1 == 7) then
      setCell b3 move.endPos.1 move.endPos.2 piece.toUpper
    else b3
  (b4, if to_move = 'r' then 'b' else 'r')

/-- Coordinates holding an opponent piece not yet captured in this chain:
the termination measure of the chain search (claim C6). -/
def uncapturedOpponents (board : Grid) (to_move : Char) (captured : List Coord) : Nat :=
  (coordsList.filter fun p =>
    !((cellAt board p.1 p.2).toLower == ' ') &&
    !((cellAt board p.1 p.2).toLower == to_move) &&
    !(decide (p ∈ captured))).length

/-- No hop is available from the last square of `path` for the effective piece
determined by the king flag `k` (the negation of `found_jump_from_pos`). -/
def noHop (board : Grid) (to_move : Char) (path captured : List Coord) (k : Bool) : Bool :=
  !((_get_directions_for_piece
      (if k then (cellAt board (path.headD (0, 0)).1 (path.headD (0, 0)).2).toUpper
       else cellAt board (path.headD (0, 0)).1 (path.headD (0, 0)).2)).any
    fun d => hopOK board to_move captured (path.getLastD (0, 0)).1 (path.getLastD (0, 0)).2 d.1 d.2)

/-- The king flag after the successive landings `lands`, folding `new_is_king`
over the landed rows starting from flag `k`. -/
def kingAfter (original_piece : Char) (k : Bool) (lands : List Coord) : Bool :=
  lands.foldl (fun k l => next_is_king original_piece k l.1) k

/-- The layout of `test_forced_capture` in `test_board.py`. -/
def forcedBoard : Grid :=
  [[' ', ' ', ' ', ' ', ' ', ' ', ' ', ' '],
   [' ', ' ', ' ', ' ', ' ', ' ', ' ', ' '],
   [' ', ' ', ' ', ' ', ' ', ' ', ' ', ' '],
   [' ', ' ', ' ', ' ', ' ', ' ', ' ', ' '],
   [' ', ' ', ' ', 'b', ' ', ' ', ' ', ' '],
   ['r', ' ', 'r', ' ', ' ', ' ', ' ', ' '],
   [' ', ' ', ' ', ' ', ' ', ' ', ' ', ' '],
   [' ', ' ', ' ', ' ', ' ', ' ', ' ', ' ']]

/-- The layout of `test_kinging_mid_chain_jump` in `test_board.py`. -/
def kingingBoard : Grid :=
  [[' ', ' ', ' ', ' ', ' ', ' ', ' ', ' '],
   [' ', ' ', 'b', ' ', 'b', ' ', ' ', ' '],
   [' ', 'r', ' ', ' ', ' ', ' ', ' ', ' '],
   [' ', ' ', ' ', ' ', ' ', ' ', ' ', ' '],
   [' ', ' ', ' ', ' ', ' ', ' ', ' ', ' '],
   [' ', ' ', ' ', ' ', ' ', ' ', ' ', ' '],
   [' ', ' ', ' ', ' ', ' ', ' ', ' ', ' '],
   [' ', ' ', ' ', ' ', ' ', ' ', ' ', ' ']]

/-- The forced-capture jump move of `test_forced_capture`. -/
def forcedMove : Move := ⟨[(5, 2), (3, 4)], [(4, 3)]⟩

/-- The promoting chain of `test_kinging_mid_chain_jump` (its path bends
backward after the hop onto row 0). -/
def kingingMove : Move := ⟨[(2, 1), (0, 3), (2, 5)], [(1, 2), (1, 4)]⟩

/-- A board with a lone red man at (0, 0), for the C4 counterexample. -/
def degBoard : Grid :=
  [['r', ' ', ' ', ' ', ' ', ' ', ' ', ' '],
   [' ', ' ', ' ', ' ', ' ', ' ', ' ', ' '],
   [' ', ' ', ' ', ' ', ' ', ' ', ' ', ' '],
   [' ', ' ', ' ', ' ', ' ', ' ', ' ', ' '],
   [' ', ' ', ' ', ' ', ' ', ' ', ' ', ' '],
   [' ', ' ', ' ', ' ', ' ', ' ', ' ', ' '],
   [' ', ' ', ' ', ' ', ' ', ' ', ' ', ' '],
   [' ', ' ', ' ', ' ', ' ', ' ', ' ', ' ']]

/-- A degenerate `Move` (never produced by generation, but a legal input to
`execute_move`, which performs no validation): it starts and ends on (0, 0)
and lists (0, 0) as captured. -/
def degMove : Move := ⟨[(0, 0), (0, 0)], [(0, 0)]⟩

/-! ### Generic helper lemmas -/

theorem mem_coordsList (p : Coord) : p ∈ coordsList ↔ is_within_bounds p.1 p.2 = true := by
  obtain ⟨p1, p2⟩ := p
  unfold coordsList is_within_bounds
  simp only [List.mem_flatMap, List.mem_map, List.mem_range, Bool.and_eq_true,
    decide_eq_true_eq, Prod.mk.injEq]
  constructor
  · rintro ⟨r, hr, c, hc, h1, h2⟩
    simp only [Int.ofNat_eq_coe] at h1 h2
    omega
  · rintro h
    refine ⟨p1.toNat, by omega, p2.toNat, by omega, ?_, ?_⟩ <;>
      simp only [Int.ofNat_eq_coe] <;> omega

theorem mem_foldl_guardAppend {α β : Type} (g : β → Bool) (F : β → List α) :
    ∀ (l : List β) (init : List α) (m : α),
      (m ∈ l.foldl (fun acc d => if g d then acc ++ F d else acc) init) ↔
        m ∈ init ∨ ∃ d ∈ l, g d = true ∧ m ∈ F d := by
  intro l
  induction l with
  | nil => simp
  | cons b t ih =>
    intro init m
    simp only [List.foldl_cons]
    rw [ih]
    by_cases hb : g b = true <;>
      simp [hb, List.mem_append, List.mem_cons] <;> tauto

theorem foldl_guardAppend_congr {α β : Type} (g : β → Bool) (F1 F2 : β → List α) :
    ∀ (l : List β), (∀ d ∈ l, g d = true → F1 d = F2 d) →
      ∀ init, l.foldl (fun acc d => if g d then acc ++ F1 d else acc) init =
        l.foldl (fun acc d => if g d then acc ++ F2 d else acc) init := by
  intro l
  induction l with
  | nil => intro _ _; rfl
  | cons b t ih =>
    intro h init
    simp only [List.foldl_cons]
    have h1 : (if g b then init ++ F1 b else init) = (if g b then init ++ F2 b else init) := by
      by_cases hb : g b = true
      · simp [hb, h b (List.mem_cons_self b t) hb]
      · simp [hb]
    rw [h1]
    exact ih (fun d hd => h d (List.mem_cons_of_mem _ hd)) _

theorem length_filter_le_of_imp {α : Type} (p q : α → Bool) :
    ∀ l : List α, (∀ a ∈ l, q a = true → p a = true) →
      (l.filter q).length ≤ (l.filter p).length := by
  intro l
  induction l with
  | nil => intro _; simp
  | cons b t ih =>
    intro h
    have ht := ih fun a ha => h a (List.mem_cons_of_mem _ ha)
    simp only [List.filter_cons]
    by_cases hq : q b = true
    · have hp := h b (List.mem_cons_self b t) hq
      simp only [hq, hp, if_true]
      simpa using ht
    · by_cases hp : p b = true <;> simp [hq, hp] <;> omega

theorem length_filter_lt_of_imp {α : Type} (p q : α → Bool) (a : α) :
    ∀ l : List α, (∀ x ∈ l, q x = true → p x = true) →
      a ∈ l → p a = true → q a = false →
      (l.filter q).length < (l.filter p).length := by
  intro l
  induction l with
  | nil => intro _ ha; cases ha
  | cons b t ih =>
    intro h ha hpa hqa
    have htimp : ∀ x ∈ t, q x = true → p x = true :=
      fun x hx => h x (List.mem_cons_of_mem _ hx)
    simp only [List.filter_cons]
    rcases List.mem_cons.1 ha with rfl | ha'
    · simp only [hqa, hpa, Bool.false_eq_true, if_false, if_true, List.length_cons]
      have := length_filter_le_of_imp p q t htimp
      omega
    · by_cases hq : q b = true
      · have hp := h b (List.mem_cons_self b t) hq
        simp only [hq, hp, if_true, List.length_cons]
        have := ih htimp ha' hpa hqa
        omega
      · have := ih htimp ha' hpa hqa
        by_cases hp : p b = true <;> simp [hq, hp] <;> omega

theorem is_within_bounds_iff (r c : Int) :
    is_within_bounds r c = true ↔ 0 ≤ r ∧ r < 8 ∧ 0 ≤ c ∧ c < 8 := by
  unfold is_within_bounds
  simp only [Bool.and_eq_true, decide_eq_true_eq]
  tauto

theorem getD_mem_of_lt {α : Type} (l : List α) (n : Nat) (d : α) (h : n < l.length) :
    l.getD n d ∈ l := by
  rw [List.getD_eq_getElem l d h]
  exact List.getElem_mem h

theorem getD_set_self {α : Type} (l : List α) (n : Nat) (a d : α) (h : n < l.length) :
    (l.set n a).getD n d = a := by
  rw [List.getD_eq_getElem?_getD, List.getElem?_set_self h]
  rfl

theorem getD_set_ne {α : Type} (l : List α) (m n : Nat) (a d : α) (h : m ≠ n) :
    (l.set m a).getD n d = l.getD n d := by
  rw [List.getD_eq_getElem?_getD, List.getElem?_set_ne h, ← List.getD_eq_getElem?_getD]

theorem wf_setCell (board : Grid) (r c : Int) (v : Char) (hb : WellFormed board) :
    WellFormed (setCell board r c v) := by
  unfold setCell
  by_cases h : is_within_bounds r c = true
  · simp only [h, if_true]
    obtain ⟨hlen, hrow⟩ := hb
    refine ⟨by simpa using hlen, ?_⟩
    intro row hrowmem
    rcases List.mem_or_eq_of_mem_set hrowmem with hmem | rfl
    · exact hrow row hmem
    · rw [List.length_set]
      have hr : r.toNat < board.length := by
        rw [hlen]
        have := (is_within_bounds_iff r c).1 h
        omega
      exact hrow _ (getD_mem_of_lt _ _ _ hr)
  · simp only [h, if_false]
    exact ⟨hb.1, hb.2⟩

theorem cellAt_setCell_self (board : Grid) (r c : Int) (v : Char)
    (hb : WellFormed board) (h : is_within_bounds r c = true) :
    cellAt (setCell board r c v) r c = v := by
  have hbd := (is_within_bounds_iff r c).1 h
  have hr : r.toNat < board.length := by rw [hb.1]; omega
  have hrowlen : (board.getD r.toNat []).length = 8 := hb.2 _ (getD_mem_of_lt _ _ _ hr)
  have hc : c.toNat < (board.getD r.toNat []).length := by rw [hrowlen]; omega
  unfold cellAt setCell
  simp only [h, if_true]
  rw [getD_set_self _ _ _ _ hr, getD_set_self _ _ _ _ hc]

theorem cellAt_setCell_ne (board : Grid) (r c r' c' : Int) (v : Char)
    (hne : (r, c) ≠ (r', c')) :
    cellAt (setCell board r c v) r' c' = cellAt board r' c' := by
  unfold cellAt setCell
  by_cases h : is_within_bounds r c = true
  · simp only [h, if_true]
    by_cases h' : is_within_bounds r' c' = true
    · simp only [h', if_true]
      by_cases hrr : r.toNat = r'.toNat
      · have hreq : r = r' := by
          have hb1 := (is_within_bounds_iff r c).1 h
          have hb2 := (is_within_bounds_iff r' c').1 h'
          omega
        subst hreq
        have hcc : c.toNat ≠ c'.toNat := by
          have hb1 := (is_within_bounds_iff r c).1 h
          have hb2 := (is_within_bounds_iff r c').1 h'
          have hcne : c ≠ c' := fun e => hne (by rw [e])
          omega
        by_cases hlen : r.toNat < board.length
        · rw [getD_set_self _ _ _ _ hlen, getD_set_ne _ _ _ _ _ hcc]
        · rw [List.set_eq_of_length_le (Nat.le_of_not_lt hlen)]
      · rw [getD_set_ne _ _ _ _ _ hrr]
    · simp [h']
  · simp [h]

theorem wf_clearFold (caps : List Coord) : ∀ board : Grid, WellFormed board →
    WellFormed (caps.foldl (fun b p => setCell b p.1 p.2 ' ') board) := by
  induction caps with
  | nil => intro b hb; exact hb
  | cons q t ih => intro b hb; exact ih _ (wf_setCell _ _ _ _ hb)

theorem cellAt_clearFold_notMem (caps : List Coord) : ∀ (board : Grid) (p : Coord),
    p ∉ caps →
    cellAt (caps.foldl (fun b q => setCell b q.1 q.2 ' ') board) p.1 p.2 =
      cellAt board p.1 p.2 := by
  induction caps with
  | nil => intro b p _; rfl
  | cons q t ih =>
    intro b p hp
    simp only [List.foldl_cons]
    rw [ih _ _ (fun hm => hp (List.mem_cons_of_mem _ hm))]
    apply cellAt_setCell_ne
    intro e
    have : q = p := by
      obtain ⟨q1, q2⟩ := q
      obtain ⟨p1, p2⟩ := p
      simpa using e
    exact hp (this ▸ List.mem_cons_self q t)

theorem cellAt_clearFold_mem (caps : List Coord) : ∀ (board : Grid) (p : Coord),
    WellFormed board → p ∈ caps → is_within_bounds p.1 p.2 = true →
    cellAt (caps.foldl (fun b q => setCell b q.1 q.2 ' ') board) p.1 p.2 = ' ' := by
  induction caps with
  | nil => intro b p _ hp _; cases hp
  | cons q t ih =>
    intro b p hb hp hin
    simp only [List.foldl_cons]
    by_cases hpt : p ∈ t
    · exact ih _ _ (wf_setCell _ _ _ _ hb) hpt hin
    · have hpq : p = q := by
        rcases List.mem_cons.1 hp with hh | hh
        · exact hh
        · exact absurd hh hpt
      subst hpq
      rw [cellAt_clearFold_notMem t _ p hpt]
      exact cellAt_setCell_self _ _ _ _ hb hin

/-! ### Consequences of the hop guard, and the termination measure -/

theorem hopOK_iff (board : Grid) (to_move : Char) (captured : List Coord) (r c dr dc : Int) :
    hopOK board to_move captured r c dr dc = true ↔
      (r + dr, c + dc) ∉ captured ∧
      is_within_bounds (r + 2 * dr) (c + 2 * dc) = true ∧
      cellAt board (r + 2 * dr) (c + 2 * dc) = ' ' ∧
      (cellAt board (r + dr) (c + dc)).toLower ≠ ' ' ∧
      (cellAt board (r + dr) (c + dc)).toLower ≠ to_move := by
  unfold hopOK
  simp only [Bool.and_eq_true, Bool.not_eq_true', decide_eq_false_iff_not, beq_iff_eq,
    beq_eq_false_iff_ne, ne_eq]
  tauto

theorem hopOK_over_inbounds (board : Grid) (to_move : Char) (captured : List Coord)
    (r c dr dc : Int) (h : hopOK board to_move captured r c dr dc = true) :
    is_within_bounds (r + dr) (c + dc) = true := by
  by_contra hc
  have hsp : cellAt board (r + dr) (c + dc) = ' ' := by
    unfold cellAt
    simp [Bool.not_eq_true _ ▸ hc]
  have := ((hopOK_iff board to_move captured r c dr dc).1 h).2.2.2.1
  rw [hsp] at this
  exact this (by decide)

theorem uncaptured_decrease (board : Grid) (to_move : Char) (captured : List Coord)
    (r c dr dc : Int) (h : hopOK board to_move captured r c dr dc = true) :
    uncapturedOpponents board to_move (captured ++ [(r + dr, c + dc)]) <
      uncapturedOpponents board to_move captured := by
  obtain ⟨hnc, hland, hsp, hop1, hop2⟩ := (hopOK_iff board to_move captured r c dr dc).1 h
  unfold uncapturedOpponents
  apply length_filter_lt_of_imp _ _ (r + dr, c + dc)
  · intro x hx hq
    simp only [Bool.and_eq_true, Bool.not_eq_true', decide_eq_false_iff_not,
      beq_eq_false_iff_ne, ne_eq, List.mem_append, List.mem_singleton] at hq ⊢
    tauto
  · exact (mem_coordsList _).2 (hopOK_over_inbounds board to_move captured r c dr dc h)
  · simp only [Bool.and_eq_true, Bool.not_eq_true', decide_eq_false_iff_not,
      beq_eq_false_iff_ne, ne_eq]
    tauto
  · simp

/-- Fuel independence of the chain search: once the fuel exceeds the number of
uncaptured opponent pieces, the result no longer depends on it (each recursive
call consumes one distinct uncaptured opponent coordinate). -/
theorem findRec_fuel_stable (board : Grid) (to_move : Char) :
    ∀ fuel₁ fuel₂ path captured king,
      uncapturedOpponents board to_move captured < fuel₁ →
      uncapturedOpponents board to_move captured < fuel₂ →
      _find_jump_sequences_recursive board to_move fuel₁ path captured king =
        _find_jump_sequences_recursive board to_move fuel₂ path captured king := by
  intro fuel₁
  induction fuel₁ using Nat.strong_induction_on with
  | h fuel₁ ih =>
    intro fuel₂ path captured king h1 h2
    obtain ⟨f1, rfl⟩ : ∃ f, fuel₁ = f + 1 := ⟨fuel₁ - 1, by omega⟩
    obtain ⟨f2, rfl⟩ : ∃ f, fuel₂ = f + 1 := ⟨fuel₂ - 1, by omega⟩
    simp only [_find_jump_sequences_recursive]
    have hcong := foldl_guardAppend_congr
      (fun d => hopOK board to_move captured (path.getLastD (0, 0)).1 (path.getLastD (0, 0)).2 d.1 d.2)
      (fun d => _find_jump_sequences_recursive board to_move f1
          (path ++ [((path.getLastD (0, 0)).1 + 2 * d.1, (path.getLastD (0, 0)).2 + 2 * d.2)])
          (captured ++ [((path.getLastD (0, 0)).1 + d.1, (path.getLastD (0, 0)).2 + d.2)])
          (next_is_king (cellAt board (path.headD (0, 0)).1 (path.headD (0, 0)).2) king
            ((path.getLastD (0, 0)).1 + 2 * d.1)))
      (fun d => _find_jump_sequences_recursive board to_move f2
          (path ++ [((path.getLastD (0, 0)).1 + 2 * d.1, (path.getLastD (0, 0)).2 + 2 * d.2)])
          (captured ++ [((path.getLastD (0, 0)).1 + d.1, (path.getLastD (0, 0)).2 + d.2)])
          (next_is_king (cellAt board (path.headD (0, 0)).1 (path.headD (0, 0)).2) king
            ((path.getLastD (0, 0)).1 + 2 * d.1)))
      (_get_directions_for_piece
        (if king then (cellAt board (path.headD (0, 0)).1 (path.headD (0, 0)).2).toUpper
         else cellAt board (path.headD (0, 0)).1 (path.headD (0, 0)).2))
      (fun d _ hok => by
        have hdec := uncaptured_decrease board to_move captured
          (path.getLastD (0, 0)).1 (path.getLastD (0, 0)).2 d.1 d.2 hok
        exact ih f1 (by omega) f2 _ _ _ (by omega) (by omega))
      []
    rw [hcong]

theorem kingAfter_nil (op : Char) (k : Bool) : kingAfter op k [] = k := rfl

theorem kingAfter_cons (op : Char) (k : Bool) (l : Coord) (t : List Coord) :
    kingAfter op k (l :: t) = kingAfter op (next_is_king op k l.1) t := rfl

theorem headD_append_of_ne_nil {α : Type} (l l' : List α) (d : α) (h : l ≠ []) :
    (l ++ l').headD d = l.headD d := by
  cases l with
  | nil => exact absurd rfl h
  | cons a t => rfl

/-- Master invariant of the chain search: every move produced from a frame
`(path, captured, king)` extends `path` and `captured` in lock-step by hops
onto empty squares, keeps captures distinct, contains at least one hop, and
terminates at a position from which no further hop is available for the king
flag evolved along its landings. -/
theorem findRec_spec (board : Grid) (to_move : Char) :
    ∀ (fuel : Nat) (path captured : List Coord) (king : Bool) (m : Move),
      path ≠ [] →
      m ∈ _find_jump_sequences_recursive board to_move fuel path captured king →
      ∃ lands overs : List Coord,
        m.path = path ++ lands ∧
        m.captured = captured ++ overs ∧
        lands.length = overs.length ∧
        (∀ l ∈ lands, cellAt board l.1 l.2 = ' ') ∧
        (captured.Nodup → m.captured.Nodup) ∧
        1 < m.path.length ∧
        noHop board to_move m.path m.captured
          (kingAfter (cellAt board (path.headD (0, 0)).1 (path.headD (0, 0)).2) king lands)
          = true ∧
        (lands ≠ [] → noHop board to_move path captured king = false) := by
  intro fuel
  induction fuel with
  | zero =>
    intro path captured king m _ hm
    cases hm
  | succ fuel ih =>
    intro path captured king m hpath hm
    simp only [_find_jump_sequences_recursive] at hm
    have hmain : m ∈ (_get_directions_for_piece
        (if king then (cellAt board (path.headD (0, 0)).1 (path.headD (0, 0)).2).toUpper
         else cellAt board (path.headD (0, 0)).1 (path.headD (0, 0)).2)).foldl
        (fun acc d =>
          if hopOK board to_move captured (path.getLastD (0, 0)).1 (path.getLastD (0, 0)).2
              d.1 d.2 then
            acc ++ _find_jump_sequences_recursive board to_move fuel
              (path ++ [((path.getLastD (0, 0)).1 + 2 * d.1, (path.getLastD (0, 0)).2 + 2 * d.2)])
              (captured ++ [((path.getLastD (0, 0)).1 + d.1, (path.getLastD (0, 0)).2 + d.2)])
              (next_is_king (cellAt board (path.headD (0, 0)).1 (path.headD (0, 0)).2) king
                ((path.getLastD (0, 0)).1 + 2 * d.1))
          else acc) [] →
        ∃ lands overs : List Coord,
          m.path = path ++ lands ∧
          m.captured = captured ++ overs ∧
          lands.length = overs.length ∧
          (∀ l ∈ lands, cellAt board l.1 l.2 = ' ') ∧
          (captured.Nodup → m.captured.Nodup) ∧
          1 < m.path.length ∧
          noHop board to_move m.path m.captured
            (kingAfter (cellAt board (path.headD (0, 0)).1 (path.headD (0, 0)).2) king lands)
            = true ∧
          (lands ≠ [] → noHop board to_move path captured king = false) := by
      intro hmem
      obtain ⟨d, hd, hok, hsub⟩ :=
        ((mem_foldl_guardAppend _ _ _ _ _).1 hmem).resolve_left (by simp)
      have hsubpath : path ++
          [((path.getLastD (0, 0)).1 + 2 * d.1, (path.getLastD (0, 0)).2 + 2 * d.2)] ≠ [] := by
        simp
      obtain ⟨lands', overs', h1, h2, h3, h4, h5, h6, h7, _⟩ :=
        ih _ _ _ m hsubpath hsub
      obtain ⟨hnc, hland, hsp, hop1, hop2⟩ := (hopOK_iff board to_move captured
        (path.getLastD (0, 0)).1 (path.getLastD (0, 0)).2 d.1 d.2).1 hok
      refine ⟨((path.getLastD (0, 0)).1 + 2 * d.1, (path.getLastD (0, 0)).2 + 2 * d.2) :: lands',
        ((path.getLastD (0, 0)).1 + d.1, (path.getLastD (0, 0)).2 + d.2) :: overs',
        ?_, ?_, ?_, ?_, ?_, h6, ?_, ?_⟩
      · rw [h1]
        simp
      · rw [h2]
        simp
      · simp [h3]
      · intro l hl
        rcases List.mem_cons.1 hl with rfl | hl'
        · exact hsp
        · exact h4 l hl'
      · intro hnd
        apply h5
        simp only [List.nodup_append, List.nodup_cons, List.nodup_nil, List.disjoint_singleton]
        exact ⟨hnd, by simp, by simpa using hnc⟩
      · rw [headD_append_of_ne_nil _ _ _ hpath] at h7
        rw [kingAfter_cons]
        simpa using h7
      · intro _
        unfold noHop
        rw [Bool.not_eq_false']
        exact List.any_eq_true.2 ⟨d, hd, hok⟩
    by_cases hcond :
        ((_get_directions_for_piece
            (if king then (cellAt board (path.headD (0, 0)).1 (path.headD (0, 0)).2).toUpper
             else cellAt board (path.headD (0, 0)).1 (path.headD (0, 0)).2)).any
          fun d => hopOK board to_move captured (path.getLastD (0, 0)).1 (path.getLastD (0, 0)).2
            d.1 d.2) = false ∧ 1 < path.length
    · rw [if_pos hcond] at hm
      rcases List.mem_append.1 hm with hres | hbase
      · exact hmain hres
      · have hmb : m = ⟨path, captured⟩ := List.mem_singleton.1 hbase
        subst hmb
        refine ⟨[], [], by simp, by simp, rfl, by simp, fun h => h, hcond.2, ?_,
          fun h => absurd rfl h⟩
        rw [kingAfter_nil]
        unfold noHop
        rw [hcond.1]
        rfl
    · rw [if_neg hcond] at hm
      exact hmain hm

theorem mem_all_jumps (board : Grid) (to_move : Char) (m : Move) :
    m ∈ all_jumps board to_move ↔
      ∃ p ∈ coordsList, (cellAt board p.1 p.2).toLower = to_move ∧
        m ∈ _get_jumps_for_piece board to_move p.1 p.2 := by
  unfold all_jumps
  rw [mem_foldl_guardAppend]
  simp

theorem mem_all_regulars (board : Grid) (to_move : Char) (m : Move) :
    m ∈ all_regulars board to_move ↔
      ∃ p ∈ coordsList, (cellAt board p.1 p.2).toLower = to_move ∧
        m ∈ _get_regular_moves_for_piece board p.1 p.2 := by
  unfold all_regulars
  rw [mem_foldl_guardAppend]
  simp

theorem getLastD_mem {α : Type} : ∀ (l : List α) (d : α), l ≠ [] → l.getLastD d ∈ l := by
  intro l
  induction l with
  | nil => intro d h; exact absurd rfl h
  | cons b t ih =>
    intro d _
    rw [List.getLastD_cons]
    by_cases ht : t = []
    · subst ht; simp
    · exact List.mem_cons_of_mem _ (ih b ht)

/-- A frame whose effective piece has no directions (in particular an empty or
foreign glyph) and whose path has made no hop produces no move at all. -/
theorem findRec_no_directions (board : Grid) (to_move : Char) (fuel : Nat)
    (path captured : List Coord) (king : Bool)
    (hdir : _get_directions_for_piece
      (if king then (cellAt board (path.headD (0, 0)).1 (path.headD (0, 0)).2).toUpper
       else cellAt board (path.headD (0, 0)).1 (path.headD (0, 0)).2) = [])
    (hlen : path.length ≤ 1) :
    _find_jump_sequences_recursive board to_move (fuel + 1) path captured king = [] := by
  simp only [_find_jump_sequences_recursive]
  rw [hdir]
  simp [hlen]

/-- Jump search from an empty square yields nothing. -/
theorem jumps_empty_cell (board : Grid) (to_move : Char) (r c : Int)
    (h : cellAt board r c = ' ') : _get_jumps_for_piece board to_move r c = [] := by
  show _find_jump_sequences_recursive board to_move (64 + 1) [(r, c)] []
    (cellAt board r c).isUpper = []
  apply findRec_no_directions
  · show _get_directions_for_piece
      (if (cellAt board r c).isUpper then (cellAt board r c).toUpper
       else cellAt board r c) = []
    rw [h]
    decide
  · simp

/-- The shape of every move produced by `_get_jumps_for_piece`. -/
theorem jumps_for_piece_spec (board : Grid) (to_move : Char) (r c : Int) (m : Move)
    (hm : m ∈ _get_jumps_for_piece board to_move r c) :
    ∃ lands : List Coord,
      m.path = (r, c) :: lands ∧
      lands.length = m.captured.length ∧
      lands ≠ [] ∧
      (∀ l ∈ lands, cellAt board l.1 l.2 = ' ') ∧
      m.captured.Nodup ∧
      1 < m.path.length ∧
      noHop board to_move m.path m.captured
        (kingAfter (cellAt board r c) (cellAt board r c).isUpper lands) = true ∧
      noHop board to_move [(r, c)] [] (cellAt board r c).isUpper = false := by
  obtain ⟨lands, overs, h1, h2, h3, h4, h5, h6, h7, h8⟩ :=
    findRec_spec board to_move 65 [(r, c)] [] (cellAt board r c).isUpper m (by simp) hm
  have hpath : m.path = (r, c) :: lands := by simpa using h1
  have hcap : m.captured = overs := by simpa using h2
  have hlands : lands ≠ [] := by
    intro he
    rw [hpath, he] at h6
    simp at h6
  refine ⟨lands, hpath, by rw [hcap, h3], hlands, h4, h5 (by simp), h6, by simpa using h7,
    h8 hlands⟩

/-- The shape of every move produced by `_get_regular_moves_for_piece`. -/
theorem regular_moves_spec (board : Grid) (r c : Int) (m : Move)
    (hm : m ∈ _get_regular_moves_for_piece board r c) :
    ∃ d ∈ _get_directions_for_piece (cellAt board r c),
      m = ⟨[(r, c), (r + d.1, c + d.2)], []⟩ ∧
      is_within_bounds (r + d.1) (c + d.2) = true ∧
      cellAt board (r + d.1) (c + d.2) = ' ' := by
  unfold _get_regular_moves_for_piece at hm
  obtain ⟨d, hd, hg, hmem⟩ := ((mem_foldl_guardAppend _ _ _ _ _).1 hm).resolve_left (by simp)
  simp only [Bool.and_eq_true, beq_iff_eq] at hg
  exact ⟨d, hd, List.mem_singleton.1 hmem, hg.1, hg.2⟩

theorem directions_sub (g : Char) (d : Coord) (hd : d ∈ _get_directions_for_piece g) :
    d ∈ ([(-1, -1), (-1, 1), (1, -1), (1, 1)] : List Coord) := by
  unfold _get_directions_for_piece at hd
  split_ifs at hd <;> simp_all <;> tauto

theorem directions_fst_ne_zero (g : Char) (d : Coord) (hd : d ∈ _get_directions_for_piece g) :
    d.1 ≠ 0 := by
  have hs := directions_sub g d hd
  simp only [List.mem_cons, List.not_mem_nil, or_false] at hs
  rcases hs with rfl | rfl | rfl | rfl <;> decide

theorem jump_move_endPos_ne_start (board : Grid) (to_move : Char) (r c : Int) (m : Move)
    (hm : m ∈ _get_jumps_for_piece board to_move r c) : m.endPos ≠ m.start := by
  have hcell : cellAt board r c ≠ ' ' := by
    intro h
    rw [jumps_empty_cell board to_move r c h] at hm
    cases hm
  obtain ⟨lands, hpath, _, hlne, hemp, _, _, _, _⟩ := jumps_for_piece_spec board to_move r c m hm
  have hstart : m.start = (r, c) := by rw [Move.start, hpath]; rfl
  have hendmem : m.endPos ∈ lands := by
    rw [Move.endPos, hpath, List.getLastD_cons]
    exact getLastD_mem lands (r, c) hlne
  have hendcell : cellAt board m.endPos.1 m.endPos.2 = ' ' := hemp _ hendmem
  intro he
  rw [he, hstart] at hendcell
  exact hcell hendcell

theorem regular_move_endPos_ne_start (board : Grid) (r c : Int) (m : Move)
    (hm : m ∈ _get_regular_moves_for_piece board r c) : m.endPos ≠ m.start := by
  obtain ⟨d, hd, hme, _, _⟩ := regular_moves_spec board r c m hm
  subst hme
  have hdz := directions_fst_ne_zero _ d hd
  show ((r + d.1, c + d.2) : Coord) ≠ (r, c)
  intro he
  rw [Prod.mk.injEq] at he
  exact hdz (by omega)

/-! ### Claim theorems -/

/-- C9: on the standard starting layout with red to move, `get_possible_moves`
returns exactly 7 moves, each a two-element path from a red man on row 5 to an
empty cell on row 4 along a forward diagonal, each with an empty captured
list (listed in the source's scan order). -/
theorem c9_initial_position :
    get_possible_moves _create_board 'r' =
      [⟨[(5, 1), (4, 0)], []⟩, ⟨[(5, 1), (4, 2)], []⟩, ⟨[(5, 3), (4, 2)], []⟩,
       ⟨[(5, 3), (4, 4)], []⟩, ⟨[(5, 5), (4, 4)], []⟩, ⟨[(5, 5), (4, 6)], []⟩,
       ⟨[(5, 7), (4, 6)], []⟩] ∧
    (get_possible_moves _create_board 'r').length = 7 ∧
    ∀ m ∈ get_possible_moves _create_board 'r', m.captured = [] := by
  refine ⟨by decide, by decide, by decide⟩

/-- C1: global forced capture.  If at least one capturing move exists for any
piece of the side to move, `get_possible_moves` returns exactly the union of
all pieces' jump sequences (`all_jumps`) and contains zero simple
(non-capturing) moves; otherwise it returns exactly the union of every
piece's one-step diagonal moves (`all_regulars`). -/
theorem c1_global_forced_capture (board : Grid) (to_move : Char) :
    ((∃ p ∈ coordsList, (cellAt board p.1 p.2).toLower = to_move ∧
        _get_jumps_for_piece board to_move p.1 p.2 ≠ []) →
      get_possible_moves board to_move = all_jumps board to_move ∧
      ∀ m ∈ get_possible_moves board to_move, m.captured ≠ []) ∧
    ((¬ ∃ p ∈ coordsList, (cellAt board p.1 p.2).toLower = to_move ∧
        _get_jumps_for_piece board to_move p.1 p.2 ≠ []) →
      get_possible_moves board to_move = all_regulars board to_move) := by
  have hiff : all_jumps board to_move ≠ [] ↔
      ∃ p ∈ coordsList, (cellAt board p.1 p.2).toLower = to_move ∧
        _get_jumps_for_piece board to_move p.1 p.2 ≠ [] := by
    constructor
    · intro hne
      obtain ⟨m, hm⟩ := List.exists_mem_of_ne_nil _ hne
      obtain ⟨p, hp, hgl, hmem⟩ := (mem_all_jumps board to_move m).1 hm
      exact ⟨p, hp, hgl, fun he => by rw [he] at hmem; cases hmem⟩
    · rintro ⟨p, hp, hgl, hne⟩ hempty
      obtain ⟨m, hm⟩ := List.exists_mem_of_ne_nil _ hne
      have : m ∈ all_jumps board to_move :=
        (mem_all_jumps board to_move m).2 ⟨p, hp, hgl, hm⟩
      rw [hempty] at this
      cases this
  constructor
  · intro hex
    have hne : all_jumps board to_move ≠ [] := hiff.2 hex
    have hgpm : get_possible_moves board to_move = all_jumps board to_move := by
      unfold get_possible_moves
      rw [if_pos hne]
    refine ⟨hgpm, ?_⟩
    intro m hm
    rw [hgpm] at hm
    obtain ⟨p, hp, hgl, hmem⟩ := (mem_all_jumps board to_move m).1 hm
    obtain ⟨lands, hpath, hlen, hlne, _, _, _, _, _⟩ :=
      jumps_for_piece_spec board to_move p.1 p.2 m hmem
    intro hce
    rw [hce] at hlen
    simp only [List.length_nil] at hlen
    exact hlne (List.length_eq_zero.1 hlen)
  · intro hnex
    have hj : ¬ all_jumps board to_move ≠ [] := fun hne => hnex (hiff.1 hne)
    unfold get_possible_moves
    rw [if_neg hj]

/-- C2: the jump-chain search registers a move only at positions from which no
further hop is available (for the king flag evolved along the chain's
landings) and only after at least one hop (`path` longer than 1); a piece
with no available first hop contributes no move at all, not even a trivial
length-1 move. -/
theorem c2_chain_registration (board : Grid) (to_move : Char) (r c : Int) :
    (∀ m ∈ _get_jumps_for_piece board to_move r c,
      1 < m.path.length ∧
      noHop board to_move m.path m.captured
        (kingAfter (cellAt board r c) (cellAt board r c).isUpper m.path.tail) = true) ∧
    (noHop board to_move [(r, c)] [] (cellAt board r c).isUpper = true →
      _get_jumps_for_piece board to_move r c = []) := by
  constructor
  · intro m hm
    obtain ⟨lands, hpath, _, _, _, _, hgt, hnh, _⟩ :=
      jumps_for_piece_spec board to_move r c m hm
    refine ⟨hgt, ?_⟩
    have htail : m.path.tail = lands := by rw [hpath]; rfl
    rw [htail]
    exact hnh
  · intro hnh
    by_contra hne
    obtain ⟨m, hm⟩ := List.exists_mem_of_ne_nil _ hne
    obtain ⟨_, _, _, _, _, _, _, _, hfalse⟩ :=
      jumps_for_piece_spec board to_move r c m hm
    rw [hnh] at hfalse
    cases hfalse

/-- C8: the chain search never hops over a coordinate already captured in the
same chain (the hop guard demands the jumped square be outside the captured
list), and consequently the captured coordinates of every move returned by
`get_possible_moves` are pairwise distinct. -/
theorem c8_no_recapture (board : Grid) (to_move : Char) :
    (∀ (captured : List Coord) (r c dr dc : Int),
      hopOK board to_move captured r c dr dc = true → (r + dr, c + dc) ∉ captured) ∧
    (∀ m ∈ get_possible_moves board to_move, m.captured.Nodup) := by
  constructor
  · intro captured r c dr dc h
    exact ((hopOK_iff board to_move captured r c dr dc).1 h).1
  · intro m hm
    unfold get_possible_moves at hm
    by_cases hne : all_jumps board to_move ≠ []
    · rw [if_pos hne] at hm
      obtain ⟨p, _, _, hmem⟩ := (mem_all_jumps board to_move m).1 hm
      obtain ⟨_, _, _, _, _, hnd, _, _, _⟩ := jumps_for_piece_spec board to_move p.1 p.2 m hmem
      exact hnd
    · rw [if_neg hne] at hm
      obtain ⟨p, _, _, hmem⟩ := (mem_all_regulars board to_move m).1 hm
      obtain ⟨d, _, hme, _, _⟩ := regular_moves_spec board p.1 p.2 m hmem
      rw [hme]
      simp

/-- C10: every move returned by move generation (both the all-pieces query and
the per-piece query) has a destination distinct from its origin: landing
squares are required to be empty on the unmutated generating board while the
origin still holds the moving piece, so no chain can terminate on its own
starting square. -/
theorem c10_destination_ne_origin (board : Grid) (to_move : Char) :
    (∀ m ∈ get_possible_moves board to_move, m.endPos ≠ m.start) ∧
    (∀ (r c : Int), ∀ m ∈ get_moves_for_piece board to_move r c, m.endPos ≠ m.start) := by
  constructor
  · intro m hm
    unfold get_possible_moves at hm
    by_cases hne : all_jumps board to_move ≠ []
    · rw [if_pos hne] at hm
      obtain ⟨p, _, _, hmem⟩ := (mem_all_jumps board to_move m).1 hm
      exact jump_move_endPos_ne_start board to_move p.1 p.2 m hmem
    · rw [if_neg hne] at hm
      obtain ⟨p, _, _, hmem⟩ := (mem_all_regulars board to_move m).1 hm
      exact regular_move_endPos_ne_start board p.1 p.2 m hmem
  · intro r c m hm
    unfold get_moves_for_piece at hm
    by_cases h1 : (cellAt board r c).toLower ≠ to_move
    · rw [if_pos h1] at hm
      cases hm
    · rw [if_neg h1] at hm
      by_cases h2 : _get_jumps_for_piece board to_move r c ≠ []
      · rw [if_pos h2] at hm
        exact jump_move_endPos_ne_start board to_move r c m hm
      · rw [if_neg h2] at hm
        exact regular_move_endPos_ne_start board r c m hm

/-- C3: mid-chain promotion.  After a hop, if the original glyph is a red
piece landing on row 0 or a black piece landing on row 7, the king flag for
all subsequent hops (`new_is_king`) is true regardless of its previous value;
a true king flag makes the search use the four-diagonal direction set of the
upgraded glyph even though the board glyph is not mutated; and on the
`test_kinging_mid_chain_jump` layout the generated output is the single chain
whose path bends backward (down the board, for red) after the promoting hop
onto row 0. -/
theorem c3_mid_chain_promotion :
    (∀ (op : Char) (k : Bool) (land_r : Int),
      ((op = 'r' ∨ op = 'R') ∧ land_r = 0) ∨ ((op = 'b' ∨ op = 'B') ∧ land_r = 7) →
      next_is_king op k land_r = true) ∧
    (∀ op : Char, op = 'r' ∨ op = 'b' →
      _get_directions_for_piece op.toUpper = [(-1, -1), (-1, 1), (1, -1), (1, 1)]) ∧
    get_possible_moves kingingBoard 'r' = [kingingMove] ∧
    kingingMove.path = [(2, 1), (0, 3), (2, 5)] := by
  refine ⟨?_, ?_, by decide, by decide⟩
  · intro op k land_r h
    rcases h with ⟨hop, rfl⟩ | ⟨hop, rfl⟩ <;> rcases hop with rfl | rfl <;>
      cases k <;> decide
  · rintro op (rfl | rfl) <;> decide

/-- C6: termination of the jump-chain search.  The recursion is fuel-stable:
any two fuels exceeding the number of uncaptured opponent coordinates give
the same result (each recursive call permanently consumes one such
coordinate), that number never exceeds 64 on any board, and consequently any
fuel above the opponent count computes exactly what the fuel-65 entry point
`_get_jumps_for_piece` computes — the recursion depth is bounded by the
number of opponent pieces on the board. -/
theorem c6_termination (board : Grid) (to_move : Char) :
    (∀ (fuel₁ fuel₂ : Nat) (path captured : List Coord) (king : Bool),
      uncapturedOpponents board to_move captured < fuel₁ →
      uncapturedOpponents board to_move captured < fuel₂ →
      _find_jump_sequences_recursive board to_move fuel₁ path captured king =
        _find_jump_sequences_recursive board to_move fuel₂ path captured king) ∧
    uncapturedOpponents board to_move [] ≤ 64 ∧
    (∀ (fuel : Nat) (r c : Int),
      uncapturedOpponents board to_move [] < fuel →
      _find_jump_sequences_recursive board to_move fuel [(r, c)] []
          (cellAt board r c).isUpper =
        _get_jumps_for_piece board to_move r c) := by
  have h64 : uncapturedOpponents board to_move [] ≤ 64 := by
    unfold uncapturedOpponents
    exact le_trans (List.length_filter_le _ _) (by decide)
  refine ⟨findRec_fuel_stable board to_move, h64, ?_⟩
  intro fuel r c hf
  exact findRec_fuel_stable board to_move fuel 65 [(r, c)] [] (cellAt board r c).isUpper
    hf (by omega)

/-- C7: per-piece query semantics.  For an in-range cell, `get_moves_for_piece`
returns the empty list when the cell is empty or does not belong to the side
to move (a valid empty result, not an error); otherwise it returns exactly
that piece's jump sequences when any exist, and exactly that piece's simple
moves when none do — without consulting any other piece's mandatory jumps. -/
theorem c7_per_piece_query (board : Grid) (to_move : Char) (r c : Int)
    (hin : is_within_bounds r c = true) (htm : to_move = 'r' ∨ to_move = 'b') :
    ((cellAt board r c = ' ' ∨ (cellAt board r c).toLower ≠ to_move) →
      get_moves_for_piece board to_move r c = []) ∧
    ((cellAt board r c).toLower = to_move →
      _get_jumps_for_piece board to_move r c ≠ [] →
      get_moves_for_piece board to_move r c = _get_jumps_for_piece board to_move r c) ∧
    ((cellAt board r c).toLower = to_move →
      _get_jumps_for_piece board to_move r c = [] →
      get_moves_for_piece board to_move r c = _get_regular_moves_for_piece board r c) := by
  refine ⟨?_, ?_, ?_⟩
  · rintro (hsp | hne)
    · have hcond : (cellAt board r c).toLower ≠ to_move := by
        rw [hsp]
        rcases htm with rfl | rfl <;> decide
      unfold get_moves_for_piece
      rw [if_pos hcond]
    · unfold get_moves_for_piece
      rw [if_pos hne]
  · intro he hj
    unfold get_moves_for_piece
    rw [if_neg (by simp [he]), if_pos hj]
  · intro he hj
    unfold get_moves_for_piece
    rw [if_neg (by simp [he]), if_neg (by simp [hj])]

/-! ### The effect of `execute_move` -/

theorem cellAt_oob (board : Grid) (r c : Int) (h : is_within_bounds r c = false) :
    cellAt board r c = ' ' := by
  unfold cellAt
  simp [h]

theorem pair_ne_of_ne {p q : Coord} (h : p ≠ q) : (p.1, p.2) ≠ (q.1, q.2) := by
  obtain ⟨a, b⟩ := p
  obtain ⟨x, y⟩ := q
  simpa using h

theorem execute_move_board_eq (board : Grid) (to_move : Char) (m : Move) :
    (execute_move board to_move m).1 =
      (if ((cellAt board m.start.1 m.start.2).toLower == 'r' && m.endPos.1 == 0)
          || ((cellAt board m.start.1 m.start.2).toLower == 'b' && m.endPos.1 == 7) then
        setCell (setCell (setCell (m.captured.foldl (fun b p => setCell b p.1 p.2 ' ') board)
            m.start.1 m.start.2 ' ') m.endPos.1 m.endPos.2 (cellAt board m.start.1 m.start.2))
          m.endPos.1 m.endPos.2 (cellAt board m.start.1 m.start.2).toUpper
      else
        setCell (setCell (m.captured.foldl (fun b p => setCell b p.1 p.2 ' ') board)
            m.start.1 m.start.2 ' ') m.endPos.1 m.endPos.2
          (cellAt board m.start.1 m.start.2)) := rfl

theorem execute_move_turn_eq (board : Grid) (to_move : Char) (m : Move) :
    (execute_move board to_move m).2 = (if to_move = 'r' then 'b' else 'r') := rfl

/-- C4 counterexample: `execute_move` applied to a (degenerate, unvalidated)
move whose captured list contains its own destination does not leave that
captured coordinate empty and does not leave the origin empty — the moved
glyph (here also promoted, since the destination is row 0) is written back
onto it, refuting the claim quantified over every `Move`. -/
theorem c4_counterexample :
    (0, 0) ∈ degMove.captured ∧
    Move.start degMove = ((0 : Int), (0 : Int)) ∧
    Move.endPos degMove = ((0 : Int), (0 : Int)) ∧
    cellAt (execute_move degBoard 'r' degMove).1 0 0 = 'R' := by
  refine ⟨by decide, by decide, by decide, by decide⟩

/-- C4 (amended): for every 8×8 board and every move whose destination lies on
the board, is distinct from its origin, and is not listed among its captured
coordinates (all of which hold for every generated move), `execute_move` sets
every captured coordinate to empty, sets the origin to empty, writes the
origin's former glyph at the destination — upgraded to king exactly when that
glyph is a red piece and the destination row is 0 or a black piece and the
destination row is 7 — flips the side to move to the opponent colour, and
leaves every other cell of the grid unchanged. -/
theorem c4_execute_move_effect (board : Grid) (to_move : Char) (m : Move)
    (hb : WellFormed board)
    (hend_in : is_within_bounds m.endPos.1 m.endPos.2 = true)
    (hcap_in : ∀ p ∈ m.captured, is_within_bounds p.1 p.2 = true)
    (hend_cap : m.endPos ∉ m.captured)
    (hse : m.start ≠ m.endPos) :
    (∀ p ∈ m.captured, cellAt (execute_move board to_move m).1 p.1 p.2 = ' ') ∧
    cellAt (execute_move board to_move m).1 m.start.1 m.start.2 = ' ' ∧
    cellAt (execute_move board to_move m).1 m.endPos.1 m.endPos.2 =
      (if ((cellAt board m.start.1 m.start.2).toLower = 'r' ∧ m.endPos.1 = 0) ∨
          ((cellAt board m.start.1 m.start.2).toLower = 'b' ∧ m.endPos.1 = 7) then
        (cellAt board m.start.1 m.start.2).toUpper
      else cellAt board m.start.1 m.start.2) ∧
    ((to_move = 'r' → (execute_move board to_move m).2 = 'b') ∧
     (to_move = 'b' → (execute_move board to_move m).2 = 'r')) ∧
    (∀ p : Coord, p ∉ m.captured → p ≠ m.start → p ≠ m.endPos →
      cellAt (execute_move board to_move m).1 p.1 p.2 = cellAt board p.1 p.2) := by
  have hwf1 : WellFormed (m.captured.foldl (fun b p => setCell b p.1 p.2 ' ') board) :=
    wf_clearFold _ _ hb
  have hwf2 : WellFormed (setCell (m.captured.foldl (fun b p => setCell b p.1 p.2 ' ') board)
      m.start.1 m.start.2 ' ') := wf_setCell _ _ _ _ hwf1
  have hwf3 : WellFormed (setCell (setCell
      (m.captured.foldl (fun b p => setCell b p.1 p.2 ' ') board)
      m.start.1 m.start.2 ' ') m.endPos.1 m.endPos.2 (cellAt board m.start.1 m.start.2)) :=
    wf_setCell _ _ _ _ hwf2
  -- facts about the board before the optional promotion write
  have hX3cap : ∀ p ∈ m.captured,
      cellAt (setCell (setCell (m.captured.foldl (fun b p => setCell b p.1 p.2 ' ') board)
        m.start.1 m.start.2 ' ') m.endPos.1 m.endPos.2 (cellAt board m.start.1 m.start.2))
        p.1 p.2 = ' ' := by
    intro p hp
    rw [cellAt_setCell_ne _ _ _ _ _ _ (pair_ne_of_ne (fun he => hend_cap (by rw [he]; exact hp)))]
    by_cases hps : p = m.start
    · rw [hps]
      exact cellAt_setCell_self _ _ _ _ hwf1 (by rw [← hps]; exact hcap_in p hp)
    · rw [cellAt_setCell_ne _ _ _ _ _ _ (pair_ne_of_ne (Ne.symm hps))]
      exact cellAt_clearFold_mem _ _ _ hb hp (hcap_in p hp)
  have hX3start :
      cellAt (setCell (setCell (m.captured.foldl (fun b p => setCell b p.1 p.2 ' ') board)
        m.start.1 m.start.2 ' ') m.endPos.1 m.endPos.2 (cellAt board m.start.1 m.start.2))
        m.start.1 m.start.2 = ' ' := by
    rw [cellAt_setCell_ne _ _ _ _ _ _ (pair_ne_of_ne (Ne.symm hse))]
    by_cases hs_in : is_within_bounds m.start.1 m.start.2 = true
    · exact cellAt_setCell_self _ _ _ _ hwf1 hs_in
    · apply cellAt_oob
      rw [Bool.not_eq_true] at hs_in
      exact hs_in
  have hX3frame : ∀ p : Coord, p ∉ m.captured → p ≠ m.start → p ≠ m.endPos →
      cellAt (setCell (setCell (m.captured.foldl (fun b p => setCell b p.1 p.2 ' ') board)
        m.start.1 m.start.2 ' ') m.endPos.1 m.endPos.2 (cellAt board m.start.1 m.start.2))
        p.1 p.2 = cellAt board p.1 p.2 := by
    intro p hpc hps hpe
    rw [cellAt_setCell_ne _ _ _ _ _ _ (pair_ne_of_ne (Ne.symm hpe)),
      cellAt_setCell_ne _ _ _ _ _ _ (pair_ne_of_ne (Ne.symm hps))]
    exact cellAt_clearFold_notMem _ _ _ hpc
  rw [execute_move_board_eq]
  by_cases hpm : (((cellAt board m.start.1 m.start.2).toLower == 'r' && m.endPos.1 == 0)
      || ((cellAt board m.start.1 m.start.2).toLower == 'b' && m.endPos.1 == 7)) = true
  · rw [if_pos hpm]
    have hprop : ((cellAt board m.start.1 m.start.2).toLower = 'r' ∧ m.endPos.1 = 0) ∨
        ((cellAt board m.start.1 m.start.2).toLower = 'b' ∧ m.endPos.1 = 7) := by
      simpa using hpm
    refine ⟨?_, ?_, ?_, ?_, ?_⟩
    · intro p hp
      rw [cellAt_setCell_ne _ _ _ _ _ _ (pair_ne_of_ne (fun he => hend_cap (by rw [he]; exact hp)))]
      exact hX3cap p hp
    · rw [cellAt_setCell_ne _ _ _ _ _ _ (pair_ne_of_ne (Ne.symm hse))]
      exact hX3start
    · rw [if_pos hprop]
      exact cellAt_setCell_self _ _ _ _ hwf3 hend_in
    · rw [execute_move_turn_eq]
      exact ⟨fun h => by simp [h], fun h => by simp [h]⟩
    · intro p hpc hps hpe
      rw [cellAt_setCell_ne _ _ _ _ _ _ (pair_ne_of_ne (Ne.symm hpe))]
      exact hX3frame p hpc hps hpe
  · rw [if_neg hpm]
    have hprop : ¬ (((cellAt board m.start.1 m.start.2).toLower = 'r' ∧ m.endPos.1 = 0) ∨
        ((cellAt board m.start.1 m.start.2).toLower = 'b' ∧ m.endPos.1 = 7)) := by
      intro hc
      exact hpm (by simpa using hc)
    refine ⟨hX3cap, hX3start, ?_, ?_, hX3frame⟩
    · rw [if_neg hprop]
      exact cellAt_setCell_self _ _ _ _ hwf2 hend_in
    · rw [execute_move_turn_eq]
      exact ⟨fun h => by simp [h], fun h => by simp [h]⟩

/-- C5: promotion at apply time depends only on the final destination row:
applying a move whose origin holds a man (`'r'` or `'b'`) and whose
destination row is not that man's promotion rank leaves the same man glyph —
not a king — at the destination, even if the path passed through the back
rank mid-chain; the transient mid-chain king flag is not retained. -/
theorem c5_no_transient_promotion (board : Grid) (to_move : Char) (m : Move)
    (hb : WellFormed board)
    (hend_in : is_within_bounds m.endPos.1 m.endPos.2 = true)
    (hman : (cellAt board m.start.1 m.start.2 = 'r' ∧ m.endPos.1 ≠ 0) ∨
            (cellAt board m.start.1 m.start.2 = 'b' ∧ m.endPos.1 ≠ 7)) :
    cellAt (execute_move board to_move m).1 m.endPos.1 m.endPos.2 =
      cellAt board m.start.1 m.start.2 ∧
    (cellAt (execute_move board to_move m).1 m.endPos.1 m.endPos.2).isUpper = false := by
  have hwf1 : WellFormed (m.captured.foldl (fun b p => setCell b p.1 p.2 ' ') board) :=
    wf_clearFold _ _ hb
  have hwf2 : WellFormed (setCell (m.captured.foldl (fun b p => setCell b p.1 p.2 ' ') board)
      m.start.1 m.start.2 ' ') := wf_setCell _ _ _ _ hwf1
  have hpromo : (((cellAt board m.start.1 m.start.2).toLower == 'r' && m.endPos.1 == 0)
      || ((cellAt board m.start.1 m.start.2).toLower == 'b' && m.endPos.1 == 7)) = false := by
    rcases hman with ⟨hp, hr⟩ | ⟨hp, hr⟩ <;> rw [hp] <;> simp [hr]
  have hmain : cellAt (execute_move board to_move m).1 m.endPos.1 m.endPos.2 =
      cellAt board m.start.1 m.start.2 := by
    rw [execute_move_board_eq, if_neg (by simp [hpromo])]
    exact cellAt_setCell_self _ _ _ _ hwf2 hend_in
  refine ⟨hmain, ?_⟩
  rw [hmain]
  rcases hman with ⟨hp, _⟩ | ⟨hp, _⟩ <;> rw [hp] <;> decide

/-! ### Witnesses -/

/-- Witness for C1 at the forced-capture layout: a capture exists, so the
returned list is the jump union and every returned move captures something. -/
theorem c1_witness :
    (∃ p ∈ coordsList, (cellAt forcedBoard p.1 p.2).toLower = 'r' ∧
      _get_jumps_for_piece forcedBoard 'r' p.1 p.2 ≠ []) ∧
    (get_possible_moves forcedBoard 'r' = all_jumps forcedBoard 'r' ∧
      ∀ m ∈ get_possible_moves forcedBoard 'r', m.captured ≠ []) :=
  ⟨by decide, (c1_global_forced_capture forcedBoard 'r').1 (by decide)⟩

/-- Witness for C2 at the forced-capture layout, piece (5, 2). -/
theorem c2_witness :
    forcedMove ∈ _get_jumps_for_piece forcedBoard 'r' 5 2 ∧
    (1 < forcedMove.path.length ∧
      noHop forcedBoard 'r' forcedMove.path forcedMove.captured
        (kingAfter (cellAt forcedBoard 5 2) (cellAt forcedBoard 5 2).isUpper
          forcedMove.path.tail) = true) :=
  ⟨by decide, (c2_chain_registration forcedBoard 'r' 5 2).1 forcedMove (by decide)⟩

/-- Witness for C3: a red man landing on row 0 turns the king flag on, and a
true king flag yields the four-diagonal direction set. -/
theorem c3_witness :
    next_is_king 'r' false 0 = true ∧
    _get_directions_for_piece 'r'.toUpper = [(-1, -1), (-1, 1), (1, -1), (1, 1)] :=
  ⟨c3_mid_chain_promotion.1 'r' false 0 (Or.inl ⟨Or.inl rfl, rfl⟩),
   c3_mid_chain_promotion.2.1 'r' (Or.inl rfl)⟩

/-- Witness for the amended C4 at the forced-capture move: the captured man at
(4, 3) is removed, the origin (5, 2) is cleared, the red man lands unpromoted
on (3, 4), the side flips to black, and an untouched cell (5, 0) keeps its
content. -/
theorem c4_witness :
    WellFormed forcedBoard ∧
    cellAt (execute_move forcedBoard 'r' forcedMove).1 4 3 = ' ' ∧
    cellAt (execute_move forcedBoard 'r' forcedMove).1 forcedMove.start.1
      forcedMove.start.2 = ' ' ∧
    cellAt (execute_move forcedBoard 'r' forcedMove).1 forcedMove.endPos.1
      forcedMove.endPos.2 =
      (if ((cellAt forcedBoard forcedMove.start.1 forcedMove.start.2).toLower = 'r' ∧
            forcedMove.endPos.1 = 0) ∨
          ((cellAt forcedBoard forcedMove.start.1 forcedMove.start.2).toLower = 'b' ∧
            forcedMove.endPos.1 = 7) then
        (cellAt forcedBoard forcedMove.start.1 forcedMove.start.2).toUpper
      else cellAt forcedBoard forcedMove.start.1 forcedMove.start.2) ∧
    (execute_move forcedBoard 'r' forcedMove).2 = 'b' ∧
    cellAt (execute_move forcedBoard 'r' forcedMove).1 5 0 = cellAt forcedBoard 5 0 := by
  have h := c4_execute_move_effect forcedBoard 'r' forcedMove (by decide) (by decide)
    (by decide) (by decide) (by decide)
  exact ⟨by decide, h.1 (4, 3) (by decide), h.2.1, h.2.2.1, h.2.2.2.1.1 rfl,
    h.2.2.2.2 (5, 0) (by decide) (by decide) (by decide)⟩

/-- Witness for C5 at the mid-chain-promotion move: its chain passes through
row 0 but ends on row 2, and the applied board holds a plain red man (not a
king) at the destination. -/
theorem c5_witness :
    WellFormed kingingBoard ∧
    cellAt kingingBoard kingingMove.start.1 kingingMove.start.2 = 'r' ∧
    kingingMove.endPos.1 = 2 ∧
    cellAt (execute_move kingingBoard 'r' kingingMove).1 kingingMove.endPos.1
        kingingMove.endPos.2 =
      cellAt kingingBoard kingingMove.start.1 kingingMove.start.2 ∧
    (cellAt (execute_move kingingBoard 'r' kingingMove).1 kingingMove.endPos.1
      kingingMove.endPos.2).isUpper = false := by
  have h := c5_no_transient_promotion kingingBoard 'r' kingingMove (by decide) (by decide)
    (Or.inl ⟨by decide, by decide⟩)
  exact ⟨by decide, by decide, by decide, h.1, h.2⟩

/-- Witness for C6: fuel 70 computes the same jump list as the fuel-65 entry
point on the forced-capture layout. -/
theorem c6_witness :
    uncapturedOpponents forcedBoard 'r' [] < 70 ∧
    _find_jump_sequences_recursive forcedBoard 'r' 70 [(5, 2)] []
        (cellAt forcedBoard 5 2).isUpper =
      _get_jumps_for_piece forcedBoard 'r' 5 2 :=
  ⟨by decide, (c6_termination forcedBoard 'r').2.2 70 5 2 (by decide)⟩

/-- Witness for C7 on the initial board: an empty in-range cell yields the
empty move set, and a red man with no jumps yields exactly its simple moves. -/
theorem c7_witness :
    is_within_bounds 4 4 = true ∧
    get_moves_for_piece _create_board 'r' 4 4 = [] ∧
    is_within_bounds 5 1 = true ∧
    get_moves_for_piece _create_board 'r' 5 1 =
      _get_regular_moves_for_piece _create_board 5 1 :=
  ⟨by decide,
    (c7_per_piece_query _create_board 'r' 4 4 (by decide) (Or.inl rfl)).1
      (Or.inl (by decide)),
    by decide,
    (c7_per_piece_query _create_board 'r' 5 1 (by decide) (Or.inl rfl)).2.2 (by decide)
      (by decide)⟩

/-- Witness for C8 at the forced-capture layout: a concrete passing hop guard
whose jumped square is outside the captured list, and a returned move with
pairwise-distinct captures. -/
theorem c8_witness :
    hopOK forcedBoard 'r' [] 5 2 (-1) 1 = true ∧
    ((5 + -1, 2 + 1) : Coord) ∉ ([] : List Coord) ∧
    forcedMove ∈ get_possible_moves forcedBoard 'r' ∧
    forcedMove.captured.Nodup :=
  ⟨by decide, (c8_no_recapture forcedBoard 'r').1 [] 5 2 (-1) 1 (by decide), by decide,
    (c8_no_recapture forcedBoard 'r').2 forcedMove (by decide)⟩

/-- Witness for C10 at the forced-capture layout: the returned jump ends away
from its origin. -/
theorem c10_witness :
    forcedMove ∈ get_possible_moves forcedBoard 'r' ∧
    forcedMove.endPos ≠ forcedMove.start :=
  ⟨by decide, (c10_destination_ne_origin forcedBoard 'r').1 forcedMove (by decide)⟩

end Checkers
